import Mathlib

/-!
Shallow embedding of the cron pool processor: the reward calculator
(`src/core/calculator.ts`), the Merkle commitment builder (same file),
the blockchain publish step (`src/core/blockchain.ts`), the focus-lock
pool orchestrator (`src/focus/processor.ts`) and the combined cron
driver (`src/cron/processor.ts`).

TypeScript `bigint` token amounts are embedded as `Nat`; `/` below is
`Nat` floor division, which agrees with bigint division on the
non-negative values that occur.  The Poseidon hash is an external
library primitive (`starknet`'s `hash.computePoseidonHashOnElements`),
not code of this repository, so it is embedded as an abstract
parameter `H : List Nat → Nat` over field elements.
-/

/-- Percent base used by the calculator (`PERCENT_BASE = 100n`). -/
def PERCENT_BASE : Nat := 100

/-- Source `SLASH_20_PERCENT = 80n`: return 80% (20% slashed). -/
def SLASH_20_PERCENT : Nat := 80

/-- Source `SLASH_50_PERCENT = 50n`: return 50% (50% slashed). -/
def SLASH_50_PERCENT : Nat := 50

/-- Source `SLASH_100_PERCENT = 0n`: return 0% (100% slashed). -/
def SLASH_100_PERCENT : Nat := 0

/-- Protocol fee percentage (`PROTOCOL_FEE_PERCENT = 10n`). -/
def PROTOCOL_FEE_PERCENT : Nat := 10

/-- Source `calculateStakeReturn` from `src/core/calculator.ts`: stake returned
to a participant given their slash/snooze count. -/
def calculateStakeReturn (stakeAmount : Nat) (slashCount : Nat) : Nat :=
  match slashCount with
  | 0 => stakeAmount
  | 1 => stakeAmount * SLASH_20_PERCENT / PERCENT_BASE
  | 2 => stakeAmount * SLASH_50_PERCENT / PERCENT_BASE
  | _ => SLASH_100_PERCENT

/-- A pool participant as consumed by `calculateTotalSlashed` /
`calculateRewards`: address, stake amount (bigint), optional snooze
count (`snooze_count ?? 0` in the source). -/
structure PoolUser where
  address : String
  stake_amount : Nat
  snooze_count : Option Nat
deriving DecidableEq, Repr

/-- Source `calculateTotalSlashed` from `src/core/calculator.ts`. -/
def calculateTotalSlashed (users : List PoolUser) : Nat :=
  users.foldl
    (fun totalSlashed user =>
      totalSlashed +
        (user.stake_amount -
          calculateStakeReturn user.stake_amount (user.snooze_count.getD 0)))
    0

/-- One distributed reward (`RewardData`). -/
structure RewardData where
  address : String
  reward_amount : Nat
deriving DecidableEq, Repr

/-- Source `calculateRewards` from `src/core/calculator.ts`: proportional
distribution of `totalPoolReward` (after the 10% protocol fee) to the
winners (participants with zero snooze count), by stake. -/
def calculateRewards (users : List PoolUser) (totalPoolReward : Nat) :
    List RewardData :=
  let winners := users.filter (fun u => u.snooze_count.getD 0 == 0)
  if winners.length = 0 ∨ totalPoolReward = 0 then []
  else
    let totalWinnerStake := winners.foldl (fun sum w => sum + w.stake_amount) 0
    if totalWinnerStake = 0 then []
    else
      let protocolFee := totalPoolReward * PROTOCOL_FEE_PERCENT / PERCENT_BASE
      let rewardsForWinners := totalPoolReward - protocolFee
      winners.map (fun winner =>
        { address := winner.address
          reward_amount :=
            rewardsForWinners * winner.stake_amount / totalWinnerStake })

/-- A focus-lock participant (`FocusLockUser` from `src/types/focus.ts`,
fields used by the calculator and orchestrator). -/
structure FocusLockUser where
  address : String
  stake_amount : Nat
  session_id : Nat
  duration : Nat
  completion_status : Bool
deriving DecidableEq, Repr

/-- Source `calculateFocusUserWeight`: stake × duration. -/
def calculateFocusUserWeight (stakeAmount duration : Nat) : Nat :=
  stakeAmount * duration

/-- Source `calculateFocusTotalSlashed`: failed locks are 100% slashed,
completed locks contribute nothing. -/
def calculateFocusTotalSlashed (users : List FocusLockUser) : Nat :=
  users.foldl
    (fun totalSlashed user =>
      if !user.completion_status then totalSlashed + user.stake_amount
      else totalSlashed)
    0

/-- One focus-lock reward (`FocusLockReward`). -/
structure FocusLockReward where
  address : String
  session_id : Nat
  reward_amount : Nat
  weight : Nat
  stake_amount : Nat
  duration : Nat
deriving DecidableEq, Repr

/-- Source `calculateFocusRewards` from `src/core/calculator.ts`: weighted
distribution of `totalPoolReward` (after the 10% protocol fee) to the
completed locks, by stake × duration per lock. -/
def calculateFocusRewards (users : List FocusLockUser)
    (totalPoolReward : Nat) : List FocusLockReward :=
  let winners := users.filter (fun u => u.completion_status == true)
  if winners.length = 0 ∨ totalPoolReward = 0 then []
  else
    let winnersWithWeights := winners.map (fun w =>
      (w, calculateFocusUserWeight w.stake_amount w.duration))
    let totalWinnerWeight :=
      winnersWithWeights.foldl (fun sum w => sum + w.2) 0
    if totalWinnerWeight = 0 then []
    else
      let protocolFee := totalPoolReward * PROTOCOL_FEE_PERCENT / PERCENT_BASE
      let rewardsForWinners := totalPoolReward - protocolFee
      winnersWithWeights.map (fun w =>
        { address := w.1.address
          session_id := w.1.session_id
          reward_amount := rewardsForWinners * w.2 / totalWinnerWeight
          weight := w.2
          stake_amount := w.1.stake_amount
          duration := w.1.duration })

/-- A percentage cut (with `p ≤ 100`) of `s` never exceeds `s`. -/
theorem mul_percent_div_le (s p : Nat) (hp : p ≤ 100) : s * p / 100 ≤ s := by
  have h1 : s * p ≤ s * 100 := Nat.mul_le_mul_left s hp
  have h2 : s * p / 100 ≤ s * 100 / 100 := Nat.div_le_div_right h1
  simpa [Nat.mul_div_cancel _ (by norm_num : (0:Nat) < 100)] using h2

/-- Source `calculateStakeReturn` never returns more than the stake. -/
theorem calculateStakeReturn_le (stakeAmount slashCount : Nat) :
    calculateStakeReturn stakeAmount slashCount ≤ stakeAmount := by
  unfold calculateStakeReturn
  match slashCount with
  | 0 => exact Nat.le_refl _
  | 1 => exact mul_percent_div_le stakeAmount SLASH_20_PERCENT (by norm_num [SLASH_20_PERCENT])
  | 2 => exact mul_percent_div_le stakeAmount SLASH_50_PERCENT (by norm_num [SLASH_50_PERCENT])
  | (n + 3) => exact Nat.zero_le _

/-- Winners as filtered by `calculateRewards` (zero snooze count). -/
def winnersOf (users : List PoolUser) : List PoolUser :=
  users.filter (fun u => u.snooze_count.getD 0 == 0)

/-- Total winner stake as accumulated by `calculateRewards`. -/
def totalWinnerStakeOf (users : List PoolUser) : Nat :=
  (winnersOf users).foldl (fun sum w => sum + w.stake_amount) 0

/-- Source `netRewardPool`: the pool after the 10% protocol fee
(`totalPoolReward - totalPoolReward * 10 / 100` in the source). -/
def netRewardPool (pool : Nat) : Nat :=
  pool - pool * PROTOCOL_FEE_PERCENT / PERCENT_BASE

/-- Sum of the distributed reward amounts. -/
def sumRewards (rs : List RewardData) : Nat :=
  rs.foldl (fun s r => s + r.reward_amount) 0

/-- Source `calculateRewards` written in terms of the named pieces. -/
theorem calculateRewards_eq (users : List PoolUser) (pool : Nat) :
    calculateRewards users pool =
      if (winnersOf users).length = 0 ∨ pool = 0 then []
      else if totalWinnerStakeOf users = 0 then []
      else (winnersOf users).map (fun w =>
        { address := w.address
          reward_amount :=
            netRewardPool pool * w.stake_amount / totalWinnerStakeOf users }) :=
  rfl

/-- Folding `+ f x` over a list starting from `n` is `n` plus the sum of
the mapped list. -/
theorem foldl_add_map {α : Type} (f : α → Nat) (l : List α) (n : Nat) :
    l.foldl (fun s x => s + f x) n = n + (l.map f).sum := by
  induction l generalizing n with
  | nil => simp
  | cons a l ih => simp [ih, List.sum_cons]; ring

/-- Floor division distributes sub-additively over addition. -/
theorem div_add_div_le_add_div (a b W : Nat) :
    a / W + b / W ≤ (a + b) / W := by
  rcases Nat.eq_zero_or_pos W with h | h
  · simp [h]
  · rw [Nat.le_div_iff_mul_le h]
    calc (a / W + b / W) * W = a / W * W + b / W * W := by ring
      _ ≤ a + b := Nat.add_le_add (Nat.div_mul_le_self a W) (Nat.div_mul_le_self b W)

/-- Each floor division loses less than one unit. -/
theorem add_div_le_div_add_div_succ (a b W : Nat) :
    (a + b) / W ≤ a / W + b / W + 1 := by
  rcases Nat.eq_zero_or_pos W with h | h
  · simp [h]
  · have ha := Nat.div_add_mod a W
    have hb := Nat.div_add_mod b W
    have hma : a % W < W := Nat.mod_lt _ h
    have hmb : b % W < W := Nat.mod_lt _ h
    have hlt : a + b < (a / W + b / W + 2) * W := by nlinarith
    have := (Nat.div_lt_iff_lt_mul h).mpr hlt
    omega

/-- Sum of proportional floor shares is bounded by the proportional
floor share of the sum. -/
theorem sum_shares_le (net W : Nat) (l : List Nat) :
    (l.map (fun s => net * s / W)).sum ≤ net * l.sum / W := by
  induction l with
  | nil => simp
  | cons a l ih =>
      calc (((a :: l).map (fun s => net * s / W))).sum
          = net * a / W + (l.map (fun s => net * s / W)).sum := by simp
        _ ≤ net * a / W + net * l.sum / W := Nat.add_le_add_left ih _
        _ ≤ (net * a + net * l.sum) / W := div_add_div_le_add_div _ _ _
        _ = net * (a :: l).sum / W := by rw [List.sum_cons, Nat.mul_add]

/-- The floor shares lose at most one unit per list element. -/
theorem shares_sum_lower (net W : Nat) (l : List Nat) :
    net * l.sum / W ≤ (l.map (fun s => net * s / W)).sum + l.length := by
  induction l with
  | nil => simp
  | cons a l ih =>
      calc net * (a :: l).sum / W = (net * a + net * l.sum) / W := by
            rw [List.sum_cons, Nat.mul_add]
        _ ≤ net * a / W + net * l.sum / W + 1 := add_div_le_div_add_div_succ _ _ _
        _ ≤ net * a / W + ((l.map (fun s => net * s / W)).sum + l.length) + 1 :=
            Nat.add_le_add_right (Nat.add_le_add_left ih _) _
        _ = ((a :: l).map (fun s => net * s / W)).sum + (a :: l).length := by
            simp; ring

/-- The winner-stake accumulator equals the sum of winner stakes. -/
theorem totalWinnerStakeOf_eq_sum (users : List PoolUser) :
    totalWinnerStakeOf users = ((winnersOf users).map (·.stake_amount)).sum := by
  simpa using foldl_add_map (·.stake_amount) (winnersOf users) 0

/-- Source `sumRewards` equals the sum of the mapped reward amounts. -/
theorem sumRewards_eq_sum (rs : List RewardData) :
    sumRewards rs = (rs.map (·.reward_amount)).sum := by
  simpa [sumRewards] using foldl_add_map (·.reward_amount) rs 0

/-- C6: proportional distribution never divides by zero and is bounded:
with no winners, a zero pool, or zero total winner stake,
`calculateRewards` returns `[]`; otherwise the distributed total is at
most `netRewardPool` and falls short of it by at most the number of
winners. -/
theorem claim_C6_calculateRewards_bounds (users : List PoolUser) (pool : Nat) :
    (winnersOf users = [] ∨ pool = 0 ∨ totalWinnerStakeOf users = 0 →
      calculateRewards users pool = []) ∧
    sumRewards (calculateRewards users pool) ≤ netRewardPool pool ∧
    (winnersOf users ≠ [] → pool ≠ 0 → totalWinnerStakeOf users ≠ 0 →
      netRewardPool pool ≤
        sumRewards (calculateRewards users pool) + (winnersOf users).length) := by
  rw [calculateRewards_eq]
  by_cases h1 : (winnersOf users).length = 0 ∨ pool = 0
  · rw [if_pos h1]
    refine ⟨fun _ => rfl, by simp [sumRewards], ?_⟩
    intro hw hp _
    rcases h1 with h1 | h1
    · exact absurd (List.length_eq_zero.mp h1) hw
    · exact absurd h1 hp
  · rw [if_neg h1]
    by_cases h2 : totalWinnerStakeOf users = 0
    · rw [if_pos h2]
      exact ⟨fun _ => rfl, by simp [sumRewards], fun _ _ hW => absurd h2 hW⟩
    · rw [if_neg h2]
      have hsum :
          sumRewards ((winnersOf users).map (fun w =>
            { address := w.address
              reward_amount :=
                netRewardPool pool * w.stake_amount / totalWinnerStakeOf users })) =
          (((winnersOf users).map (·.stake_amount)).map
            (fun s => netRewardPool pool * s / totalWinnerStakeOf users)).sum := by
        rw [sumRewards_eq_sum, List.map_map, List.map_map]
        rfl
      have hW : ((winnersOf users).map (·.stake_amount)).sum = totalWinnerStakeOf users :=
        (totalWinnerStakeOf_eq_sum users).symm
      have hWpos : 0 < totalWinnerStakeOf users := Nat.pos_of_ne_zero h2
      refine ⟨fun h => ?_, ?_, fun _ _ _ => ?_⟩
      · rcases h with h | h | h
        · exact absurd (Or.inl (by simp [h])) h1
        · exact absurd (Or.inr h) h1
        · exact absurd h h2
      · rw [hsum]
        calc (((winnersOf users).map (·.stake_amount)).map
              (fun s => netRewardPool pool * s / totalWinnerStakeOf users)).sum
            ≤ netRewardPool pool * ((winnersOf users).map (·.stake_amount)).sum /
                totalWinnerStakeOf users := sum_shares_le _ _ _
          _ = netRewardPool pool * totalWinnerStakeOf users / totalWinnerStakeOf users := by
              rw [hW]
          _ = netRewardPool pool := Nat.mul_div_cancel _ hWpos
      · rw [hsum]
        have hlen : ((winnersOf users).map (·.stake_amount)).length =
            (winnersOf users).length := by simp
        have hlow := shares_sum_lower (netRewardPool pool) (totalWinnerStakeOf users)
          ((winnersOf users).map (·.stake_amount))
        rw [hW, Nat.mul_div_cancel _ hWpos, hlen] at hlow
        exact hlow

/-- Concrete pool users for the C6 witness. -/
def demoUsers : List PoolUser :=
  [{ address := "0xa", stake_amount := 100, snooze_count := none },
   { address := "0xb", stake_amount := 50, snooze_count := some 2 }]

theorem claim_C6_calculateRewards_bounds_witness :
    calculateRewards demoUsers 0 = [] ∧
    netRewardPool 35 ≤
      sumRewards (calculateRewards demoUsers 35) + (winnersOf demoUsers).length :=
  ⟨(claim_C6_calculateRewards_bounds demoUsers 0).1 (Or.inr (Or.inl rfl)),
   (claim_C6_calculateRewards_bounds demoUsers 35).2.2
     (by decide) (by decide) (by decide)⟩

/-- C7: `calculateStakeReturn` returns the full stake at penalty level
0, floor(80%) at level 1, floor(50%) at level 2, 0 at level 3 or more,
and never more than the stake. -/
theorem claim_C7_calculateStakeReturn (stake : Nat) :
    calculateStakeReturn stake 0 = stake ∧
    calculateStakeReturn stake 1 = stake * 80 / 100 ∧
    calculateStakeReturn stake 2 = stake * 50 / 100 ∧
    (∀ c, 3 ≤ c → calculateStakeReturn stake c = 0) ∧
    (∀ c, calculateStakeReturn stake c ≤ stake) := by
  refine ⟨rfl, rfl, rfl, ?_, fun c => calculateStakeReturn_le stake c⟩
  intro c hc
  match c, hc with
  | (n + 3), _ => rfl

theorem claim_C7_calculateStakeReturn_witness :
    calculateStakeReturn 100 5 = 0 ∧ calculateStakeReturn 100 5 ≤ 100 :=
  ⟨(claim_C7_calculateStakeReturn 100).2.2.2.1 5 (by norm_num),
   (claim_C7_calculateStakeReturn 100).2.2.2.2 5⟩

/-- Step 3 of `processFocusLockPool` (`src/focus/processor.ts`): the
orchestrator deducts the 10% protocol fee from the slashed pool and
passes the remainder (`newRewards`) to `calculateFocusRewards`. -/
def processFocusRewardsStep (users : List FocusLockUser) :
    List FocusLockReward :=
  let totalSlashed := calculateFocusTotalSlashed users
  let protocolFees := totalSlashed * PROTOCOL_FEE_PERCENT / PERCENT_BASE
  let newRewards := totalSlashed - protocolFees
  calculateFocusRewards users newRewards

/-- Concrete focus-lock pool exhibiting the double fee deduction: one
completed lock (stake 100, duration 1) and one failed lock (stake 100,
so `totalSlashed = 100`). -/
def demoFocusUsers : List FocusLockUser :=
  [{ address := "0xa", stake_amount := 100, session_id := 1, duration := 1,
     completion_status := true },
   { address := "0xb", stake_amount := 100, session_id := 2, duration := 1,
     completion_status := false }]

/-- C2: the pool run distributes 81 to the sole winner of
`demoFocusUsers` — the 10% fee is applied both in the orchestrator
(100 → 90) and again inside `calculateFocusRewards` (90 → 81) — while
a single fee deduction (`netRewardPool = 100 - 10 = 90`, weight =
total weight) would give 90. -/
theorem claim_C2_double_fee_at_failing_input :
    (processFocusRewardsStep demoFocusUsers).map (fun r => r.reward_amount) =
      [81] ∧
    calculateFocusTotalSlashed demoFocusUsers = 100 ∧
    netRewardPool (calculateFocusTotalSlashed demoFocusUsers) *
        calculateFocusUserWeight 100 1 / calculateFocusUserWeight 100 1 = 90 ∧
    (81 : Nat) ≠ 90 := by
  refine ⟨?_, rfl, rfl, by norm_num⟩
  rfl

/-- The ledger's native hash over an ordered list of field elements
(Poseidon: `hash.computePoseidonHashOnElements` from the external
`starknet` library), embedded as an abstract function. -/
abbrev HashFn := List Nat → Nat

/-- Parent hash of a pair, numerically sorted before hashing
(`left < right ? [left, right] : [right, left]`, OpenZeppelin
standard). -/
def sortedPairHash (H : HashFn) (a b : Nat) : Nat :=
  if a < b then H [a, b] else H [b, a]

/-- An internal tree node of the builders: the identity keys of the
leaves in its subtree (`addresses` in `buildMerkleTree`, `leafKeys` in
`buildFocusMerkleTree`) and its hash (`hashBig`). -/
structure MNode where
  keys : List String
  hashBig : Nat
deriving DecidableEq, Repr, Inhabited

/-- The `proofs` record: identity key → sibling-hash list; keys not in
the record map to `none`. -/
abbrev ProofsMap := String → Option (List Nat)

/-- Source `proofs[k].push(v)`. -/
def pushProof (p : ProofsMap) (k : String) (v : Nat) : ProofsMap :=
  fun k' => if k' = k then (p k').map (fun ps => ps ++ [v]) else p k'

/-- Push `v` onto the proof list of every key in `ks`. -/
def pushProofAll (p : ProofsMap) (ks : List String) (v : Nat) : ProofsMap :=
  ks.foldl (fun acc k => pushProof acc k v) p

/-- One pass of the `while (currentLevel.length > 1)` body of
`buildMerkleTree`: adjacent nodes are paired left to right; an odd
trailing node pairs with itself (`right = left`); the right node's hash
is pushed to every key of the left node unconditionally, the left
node's hash to every key of the right node only when `left !== right`;
the parent carries the keys of both children. -/
def pairOff (H : HashFn) : List MNode → ProofsMap → List MNode × ProofsMap
  | [], p => ([], p)
  | [x], p =>
      ([⟨x.keys, sortedPairHash H x.hashBig x.hashBig⟩],
       pushProofAll p x.keys x.hashBig)
  | x :: y :: rest, p =>
      let p1 := pushProofAll p x.keys y.hashBig
      let p2 := pushProofAll p1 y.keys x.hashBig
      let next := pairOff H rest p2
      (⟨x.keys ++ y.keys, sortedPairHash H x.hashBig y.hashBig⟩ :: next.1,
       next.2)

/-- One pass of the `while` body of `buildFocusMerkleTree`: same
pairing, but the push of the left hash and the merge of the key lists
skip keys already present on the left. -/
def focusPairOff (H : HashFn) : List MNode → ProofsMap → List MNode × ProofsMap
  | [], p => ([], p)
  | [x], p =>
      ([⟨x.keys, sortedPairHash H x.hashBig x.hashBig⟩],
       pushProofAll p x.keys x.hashBig)
  | x :: y :: rest, p =>
      let p1 := pushProofAll p x.keys y.hashBig
      let p2 := (y.keys.filter (fun k => !x.keys.contains k)).foldl
        (fun acc k => pushProof acc k x.hashBig) p1
      let combinedLeafKeys := y.keys.foldl
        (fun acc k => if acc.contains k then acc else acc ++ [k]) x.keys
      let next := focusPairOff H rest p2
      (⟨combinedLeafKeys, sortedPairHash H x.hashBig y.hashBig⟩ :: next.1,
       next.2)

/-- The `while (currentLevel.length > 1)` loop, with a fuel bound (the
loop halves the level each pass, so any fuel ≥ the level length runs it
to completion). -/
def buildLoop (H : HashFn) : Nat → List MNode → ProofsMap →
    List MNode × ProofsMap
  | 0, level, p => (level, p)
  | fuel + 1, level, p =>
      if level.length ≤ 1 then (level, p)
      else
        let next := pairOff H level p
        buildLoop H fuel next.1 next.2

/-- The `while` loop of `buildFocusMerkleTree`, with fuel. -/
def focusBuildLoop (H : HashFn) : Nat → List MNode → ProofsMap →
    List MNode × ProofsMap
  | 0, level, p => (level, p)
  | fuel + 1, level, p =>
      if level.length ≤ 1 then (level, p)
      else
        let next := focusPairOff H level p
        focusBuildLoop H fuel next.1 next.2

/-- The sentinel `0x6e6f5f726577617264734040` ("no_rewards@@") hashed
for an empty leaf set. -/
def NO_REWARDS_SENTINEL : Nat := 0x6e6f5f726577617264734040

/-- A leaf supplied to `buildMerkleTree`: `{address, hash}` (the hex
hash string embedded as the field element it denotes). -/
structure LeafIn where
  address : String
  hash : Nat
deriving DecidableEq, Repr

/-- A leaf supplied to `buildFocusMerkleTree`: `{address, session_id,
hash}`. -/
structure FocusLeafIn where
  address : String
  session_id : Nat
  hash : Nat
deriving DecidableEq, Repr

/-- The identity key of a focus leaf: `"{address}_{session_id}"`
rendered as `address ++ "_" ++ toString session_id`. -/
def focusKey (address : String) (sessionId : Nat) : String :=
  address ++ "_" ++ toString sessionId

/-- The returned commitment: root hash and proof record. -/
structure MerkleTree where
  root : Nat
  proofs : ProofsMap

/-- Source `buildMerkleTree` from `src/core/calculator.ts`. -/
def buildMerkleTree (H : HashFn) (leaves : List LeafIn) : MerkleTree :=
  match leaves with
  | [] => { root := H [NO_REWARDS_SENTINEL], proofs := fun _ => none }
  | [l] => { root := l.hash, proofs := fun k => if k = l.address then some [] else none }
  | l1 :: l2 :: rest =>
      let leaves := l1 :: l2 :: rest
      let p0 : ProofsMap := fun k =>
        if (leaves.map (·.address)).contains k then some [] else none
      let level0 := leaves.map (fun l => MNode.mk [l.address] l.hash)
      let result := buildLoop H level0.length level0 p0
      { root := result.1.headI.hashBig, proofs := result.2 }

/-- Source `buildFocusMerkleTree` from `src/core/calculator.ts`. -/
def buildFocusMerkleTree (H : HashFn) (leaves : List FocusLeafIn) :
    MerkleTree :=
  match leaves with
  | [] => { root := H [NO_REWARDS_SENTINEL], proofs := fun _ => none }
  | [l] =>
      { root := l.hash
        proofs := fun k => if k = focusKey l.address l.session_id then some [] else none }
  | l1 :: l2 :: rest =>
      let leaves := l1 :: l2 :: rest
      let p0 : ProofsMap := fun k =>
        if (leaves.map (fun l => focusKey l.address l.session_id)).contains k
        then some [] else none
      let level0 := leaves.map (fun l =>
        MNode.mk [focusKey l.address l.session_id] l.hash)
      let result := focusBuildLoop H level0.length level0 p0
      { root := result.1.headI.hashBig, proofs := result.2 }

/-- Source `createMerkleLeaf`: `poseidon([address, reward.low, reward.high])`
with the u256 reward split at 2^128. -/
def createMerkleLeaf (H : HashFn) (userAddress : Nat) (rewardAmount : Nat) :
    Nat :=
  H [userAddress, rewardAmount % 2 ^ 128, rewardAmount / 2 ^ 128]

/-- Source `createFocusMerkleLeaf`:
`poseidon([address, session_id, reward.low, reward.high])`. -/
def createFocusMerkleLeaf (H : HashFn) (userAddress : Nat) (sessionId : Nat)
    (rewardAmount : Nat) : Nat :=
  H [userAddress, sessionId, rewardAmount % 2 ^ 128, rewardAmount / 2 ^ 128]

/-- The off-chain verifier's fold: absorb the proof entries left to
right with sorted-pair hashing, starting from the leaf hash. -/
def foldProof (H : HashFn) (leafHash : Nat) (proof : List Nat) : Nat :=
  proof.foldl (fun h s => sortedPairHash H h s) leafHash

/-- All identity keys appearing in a level. -/
def keysOf (level : List MNode) : List String :=
  (level.map MNode.keys).flatten

theorem keysOf_nil : keysOf [] = [] := rfl

theorem keysOf_cons (n : MNode) (ns : List MNode) :
    keysOf (n :: ns) = n.keys ++ keysOf ns := rfl

/-- Source `pushProof` leaves other keys unchanged. -/
theorem pushProof_ne (p : ProofsMap) (k0 k : String) (v : Nat)
    (h : k ≠ k0) : pushProof p k0 v k = p k := by
  simp [pushProof, h]

/-- Source `pushProof` appends at its key. -/
theorem pushProof_eq (p : ProofsMap) (k : String) (v : Nat) :
    pushProof p k v k = (p k).map (fun ps => ps ++ [v]) := by
  simp [pushProof]

theorem pushProofAll_cons (p : ProofsMap) (a : String) (ks : List String)
    (v : Nat) :
    pushProofAll p (a :: ks) v = pushProofAll (pushProof p a v) ks v := rfl

/-- Source `pushProofAll` leaves keys outside `ks` unchanged. -/
theorem pushProofAll_not_mem (ks : List String) (v : Nat) (k : String)
    (h : k ∉ ks) : ∀ p : ProofsMap, pushProofAll p ks v k = p k := by
  induction ks with
  | nil => intro p; rfl
  | cons a ks ih =>
      intro p
      rw [pushProofAll_cons, ih (fun hm => h (List.mem_cons_of_mem a hm)),
        pushProof_ne _ _ _ _ (fun he => h (by rw [he]; exact List.mem_cons_self a ks))]

/-- Source `pushProofAll` appends once at each key of a duplicate-free list. -/
theorem pushProofAll_mem (ks : List String) (v : Nat) (k : String)
    (hmem : k ∈ ks) (hnd : ks.Nodup) : ∀ p : ProofsMap,
    pushProofAll p ks v k = (p k).map (fun ps => ps ++ [v]) := by
  induction ks with
  | nil => cases hmem
  | cons a ks ih =>
      intro p
      rw [pushProofAll_cons]
      rcases List.mem_cons.mp hmem with he | hm
      · subst he
        rw [pushProofAll_not_mem _ _ _ (List.nodup_cons.mp hnd).1,
          pushProof_eq]
      · have hka : k ≠ a := by
          rintro rfl
          exact (List.nodup_cons.mp hnd).1 hm
        rw [ih hm (List.nodup_cons.mp hnd).2, pushProof_ne _ _ _ _ hka]

/-- Pushing never creates or removes record entries. -/
theorem pushProof_isSome (p : ProofsMap) (k0 : String) (v : Nat)
    (k : String) : ((pushProof p k0 v) k).isSome = (p k).isSome := by
  by_cases h : k = k0 <;> simp [pushProof, h]

theorem pushProofAll_isSome (ks : List String) (v : Nat) (k : String) :
    ∀ p : ProofsMap, ((pushProofAll p ks v) k).isSome = (p k).isSome := by
  induction ks with
  | nil => intro p; rfl
  | cons a ks ih =>
      intro p
      rw [pushProofAll_cons, ih, pushProof_isSome]

/-- Folding one more proof entry hashes the accumulator with it. -/
theorem foldProof_append (H : HashFn) (b : Nat) (ps : List Nat) (v : Nat) :
    foldProof H b (ps ++ [v]) = sortedPairHash H (foldProof H b ps) v := by
  simp [foldProof, List.foldl_append]

/-- Sorted-pair hashing ignores argument order. -/
theorem sortedPairHash_comm (H : HashFn) (a b : Nat) :
    sortedPairHash H a b = sortedPairHash H b a := by
  unfold sortedPairHash
  rcases Nat.lt_trichotomy a b with h | h | h
  · rw [if_pos h, if_neg (Nat.lt_asymm h)]
  · subst h; rfl
  · rw [if_neg (Nat.lt_asymm h), if_pos h]

/-- One pairing pass produces `⌈n/2⌉` nodes. -/
theorem pairOff_length (H : HashFn) : ∀ (l : List MNode) (p : ProofsMap),
    (pairOff H l p).1.length = (l.length + 1) / 2
  | [], _ => rfl
  | [_], _ => by simp [pairOff]
  | x :: y :: rest, p => by
      show ((⟨x.keys ++ y.keys, sortedPairHash H x.hashBig y.hashBig⟩ : MNode) ::
        (pairOff H rest _).1).length = _
      rw [List.length_cons, pairOff_length H rest]
      simp only [List.length_cons]
      omega

/-- One pairing pass preserves the concatenated key list exactly. -/
theorem pairOff_keysOf (H : HashFn) : ∀ (l : List MNode) (p : ProofsMap),
    keysOf (pairOff H l p).1 = keysOf l
  | [], _ => rfl
  | [x], _ => by simp [pairOff, keysOf]
  | x :: y :: rest, p => by
      show keysOf ((⟨x.keys ++ y.keys, sortedPairHash H x.hashBig y.hashBig⟩ : MNode) ::
        (pairOff H rest _).1) = _
      rw [keysOf_cons, pairOff_keysOf H rest, keysOf_cons, keysOf_cons]
      simp [List.append_assoc]

/-- One pairing pass only pushes onto keys of the level. -/
theorem pairOff_not_mem (H : HashFn) : ∀ (l : List MNode) (p : ProofsMap)
    (k : String), k ∉ keysOf l → (pairOff H l p).2 k = p k
  | [], _, _, _ => rfl
  | [x], p, k, h => by
      have hx : k ∉ x.keys := by
        intro hm
        exact h (by simpa [keysOf] using hm)
      exact pushProofAll_not_mem _ _ _ hx p
  | x :: y :: rest, p, k, h => by
      rw [keysOf_cons, keysOf_cons] at h
      simp only [List.mem_append, not_or] at h
      show (pairOff H rest _).2 k = p k
      rw [pairOff_not_mem H rest _ k h.2.2,
        pushProofAll_not_mem _ _ _ h.2.1,
        pushProofAll_not_mem _ _ _ h.1]

/-- One pairing pass neither creates nor removes record entries. -/
theorem pairOff_isSome (H : HashFn) : ∀ (l : List MNode) (p : ProofsMap)
    (k : String), ((pairOff H l p).2 k).isSome = (p k).isSome
  | [], _, _ => rfl
  | [x], p, k => pushProofAll_isSome _ _ _ p
  | x :: y :: rest, p, k => by
      show ((pairOff H rest _).2 k).isSome = _
      rw [pairOff_isSome H rest, pushProofAll_isSome, pushProofAll_isSome]

/-- The loop neither creates nor removes record entries. -/
theorem buildLoop_isSome (H : HashFn) : ∀ (fuel : Nat) (l : List MNode)
    (p : ProofsMap) (k : String),
    ((buildLoop H fuel l p).2 k).isSome = (p k).isSome
  | 0, _, _, _ => rfl
  | fuel + 1, l, p, k => by
      unfold buildLoop
      by_cases h : l.length ≤ 1
      · rw [if_pos h]
      · rw [if_neg h]
        show ((buildLoop H fuel (pairOff H l p).1 (pairOff H l p).2).2 k).isSome = _
        rw [buildLoop_isSome H fuel, pairOff_isSome]

/-- With fuel at least the level length, the loop drains to at most one
node. -/
theorem buildLoop_length (H : HashFn) : ∀ (fuel : Nat) (l : List MNode)
    (p : ProofsMap), l.length ≤ fuel → (buildLoop H fuel l p).1.length ≤ 1
  | 0, l, p, h => by
      have : l.length = 0 := Nat.le_zero.mp h
      simpa [buildLoop] using Nat.le_of_eq this |>.trans (Nat.zero_le 1) |> fun _ => by
        simp [buildLoop, this]
  | fuel + 1, l, p, h => by
      unfold buildLoop
      by_cases hl : l.length ≤ 1
      · rw [if_pos hl]; exact hl
      · rw [if_neg hl]
        refine buildLoop_length H fuel _ _ ?_
        rw [pairOff_length]
        omega

/-- The loop preserves the concatenated key list. -/
theorem buildLoop_keysOf (H : HashFn) : ∀ (fuel : Nat) (l : List MNode)
    (p : ProofsMap), keysOf (buildLoop H fuel l p).1 = keysOf l
  | 0, _, _ => rfl
  | fuel + 1, l, p => by
      unfold buildLoop
      by_cases h : l.length ≤ 1
      · rw [if_pos h]
      · rw [if_neg h]
        show keysOf (buildLoop H fuel (pairOff H l p).1 (pairOff H l p).2).1 = _
        rw [buildLoop_keysOf H fuel, pairOff_keysOf]

/-- A key in a node of a level occurs in the level's key list. -/
theorem mem_keysOf {k : String} {n : MNode} {l : List MNode}
    (hn : n ∈ l) (hk : k ∈ n.keys) : k ∈ keysOf l :=
  List.mem_flatten.mpr ⟨n.keys, List.mem_map_of_mem _ hn, hk⟩

theorem nodup_append_parts {l1 l2 : List String} (h : (l1 ++ l2).Nodup) :
    l1.Nodup ∧ l2.Nodup ∧ ∀ k ∈ l1, k ∉ l2 := by
  rw [List.nodup_append] at h
  exact ⟨h.1, h.2.1, fun k hk => h.2.2 hk⟩

/-- Invariant of one node during the build: every leaf key in its
subtree has a proof entry that folds from that leaf's hash to the
node's hash. -/
def NodeInv (H : HashFn) (base : String → Nat) (p : ProofsMap)
    (n : MNode) : Prop :=
  ∀ k ∈ n.keys, ∃ ps, p k = some ps ∧ foldProof H (base k) ps = n.hashBig

/-- The node invariant, for every node of a level. -/
def LevelInv (H : HashFn) (base : String → Nat) (p : ProofsMap)
    (level : List MNode) : Prop :=
  ∀ n ∈ level, NodeInv H base p n

/-- One pairing pass preserves the level invariant (keys must be
pairwise distinct across the level). -/
theorem pairOff_inv (H : HashFn) (base : String → Nat) :
    ∀ (l : List MNode) (p : ProofsMap), (keysOf l).Nodup →
    LevelInv H base p l →
    LevelInv H base (pairOff H l p).2 (pairOff H l p).1
  | [], _, _, _ => by intro n hn; cases hn
  | [x], p, hnd, hinv => by
      intro n hn
      have hxnd : x.keys.Nodup := by simpa [keysOf] using hnd
      have hn' : n = ⟨x.keys, sortedPairHash H x.hashBig x.hashBig⟩ := by
        simpa [pairOff] using hn
      subst hn'
      intro k hk
      obtain ⟨ps, hps, hfold⟩ := hinv x (List.mem_singleton_self x) k hk
      refine ⟨ps ++ [x.hashBig], ?_, ?_⟩
      · show pushProofAll p x.keys x.hashBig k = _
        rw [pushProofAll_mem _ _ _ hk hxnd, hps]
        rfl
      · rw [foldProof_append, hfold]
  | x :: y :: rest, p, hnd, hinv => by
      rw [keysOf_cons, keysOf_cons] at hnd
      obtain ⟨hxnd, hrest1, hdisj1⟩ := nodup_append_parts hnd
      obtain ⟨hynd, hrnd, hdisj2⟩ := nodup_append_parts hrest1
      have hp2x : ∀ k ∈ x.keys,
          pushProofAll (pushProofAll p x.keys y.hashBig) y.keys x.hashBig k =
            (p k).map (fun ps => ps ++ [y.hashBig]) := by
        intro k hk
        have hky : k ∉ y.keys :=
          fun hm => hdisj1 k hk (List.mem_append.mpr (Or.inl hm))
        rw [pushProofAll_not_mem _ _ _ hky, pushProofAll_mem _ _ _ hk hxnd]
      have hp2y : ∀ k ∈ y.keys,
          pushProofAll (pushProofAll p x.keys y.hashBig) y.keys x.hashBig k =
            (p k).map (fun ps => ps ++ [x.hashBig]) := by
        intro k hk
        have hkx : k ∉ x.keys :=
          fun hm => hdisj1 k hm (List.mem_append.mpr (Or.inl hk))
        rw [pushProofAll_mem _ _ _ hk hynd, pushProofAll_not_mem _ _ _ hkx]
      have hp2r : ∀ k ∈ keysOf rest,
          pushProofAll (pushProofAll p x.keys y.hashBig) y.keys x.hashBig k =
            p k := by
        intro k hk
        have hky : k ∉ y.keys := fun hm => hdisj2 k hm hk
        have hkx : k ∉ x.keys :=
          fun hm => hdisj1 k hm (List.mem_append.mpr (Or.inr hk))
        rw [pushProofAll_not_mem _ _ _ hky, pushProofAll_not_mem _ _ _ hkx]
      have hparent : NodeInv H base
          (pushProofAll (pushProofAll p x.keys y.hashBig) y.keys x.hashBig)
          ⟨x.keys ++ y.keys, sortedPairHash H x.hashBig y.hashBig⟩ := by
        intro k hk
        rcases List.mem_append.mp hk with hkx | hky
        · obtain ⟨ps, hps, hfold⟩ := hinv x (by simp) k hkx
          exact ⟨ps ++ [y.hashBig], by rw [hp2x k hkx, hps]; rfl,
            by rw [foldProof_append, hfold]⟩
        · obtain ⟨ps, hps, hfold⟩ := hinv y (by simp) k hky
          exact ⟨ps ++ [x.hashBig], by rw [hp2y k hky, hps]; rfl,
            by rw [foldProof_append, hfold, sortedPairHash_comm]⟩
      have hrestinv : LevelInv H base
          (pushProofAll (pushProofAll p x.keys y.hashBig) y.keys x.hashBig)
          rest := by
        intro n hn k hk
        obtain ⟨ps, hps, hfold⟩ := hinv n (by simp [hn]) k hk
        exact ⟨ps, by rw [hp2r k (mem_keysOf hn hk), hps], hfold⟩
      have hrec := pairOff_inv H base rest
        (pushProofAll (pushProofAll p x.keys y.hashBig) y.keys x.hashBig)
        hrnd hrestinv
      intro n hn
      have hn' : n = ⟨x.keys ++ y.keys, sortedPairHash H x.hashBig y.hashBig⟩ ∨
          n ∈ (pairOff H rest
            (pushProofAll (pushProofAll p x.keys y.hashBig) y.keys x.hashBig)).1 := by
        simpa [pairOff] using hn
      show NodeInv H base (pairOff H rest
        (pushProofAll (pushProofAll p x.keys y.hashBig) y.keys x.hashBig)).2 n
      rcases hn' with he | hm
      · subst he
        intro k hk
        obtain ⟨ps, hps, hfold⟩ := hparent k hk
        refine ⟨ps, ?_, hfold⟩
        rw [pairOff_not_mem H rest _ k ?_, hps]
        rcases List.mem_append.mp hk with hkx | hky
        · exact fun hm => hdisj1 k hkx (List.mem_append.mpr (Or.inr hm))
        · exact fun hm => hdisj2 k hky hm
      · exact hrec n hm

/-- The loop preserves the level invariant. -/
theorem buildLoop_inv (H : HashFn) (base : String → Nat) :
    ∀ (fuel : Nat) (l : List MNode) (p : ProofsMap), (keysOf l).Nodup →
    LevelInv H base p l →
    LevelInv H base (buildLoop H fuel l p).2 (buildLoop H fuel l p).1
  | 0, _, _, _, hinv => hinv
  | fuel + 1, l, p, hnd, hinv => by
      unfold buildLoop
      by_cases h : l.length ≤ 1
      · rw [if_pos h]; exact hinv
      · rw [if_neg h]
        show LevelInv H base
          (buildLoop H fuel (pairOff H l p).1 (pairOff H l p).2).2
          (buildLoop H fuel (pairOff H l p).1 (pairOff H l p).2).1
        exact buildLoop_inv H base fuel _ _
          (by rw [pairOff_keysOf]; exact hnd)
          (pairOff_inv H base l p hnd hinv)

/-- The leaf hash associated to an identity key (first match, as a JS
`find` would give; unique under distinct keys). -/
def leafHashAt (leaves : List LeafIn) : String → Nat :=
  fun k => (((leaves.find? (fun l => l.address == k)).map LeafIn.hash).getD 0)

/-- Under pairwise-distinct addresses, `find?` at a member's address
returns exactly that member. -/
theorem find?_addr_of_nodup : ∀ (leaves : List LeafIn),
    (leaves.map (·.address)).Nodup → ∀ {l : LeafIn}, l ∈ leaves →
    leaves.find? (fun l' => l'.address == l.address) = some l
  | [], _, _, hl => by cases hl
  | a :: rest, hnd, l, hl => by
      rw [List.map_cons] at hnd
      rcases List.mem_cons.mp hl with he | hm
      · subst he
        simp [List.find?_cons]
      · have hne : (a.address == l.address) = false := by
          rw [beq_eq_false_iff_ne]
          intro he
          exact (List.nodup_cons.mp hnd).1
            (he ▸ List.mem_map_of_mem (·.address) hm)
        rw [List.find?_cons, hne]
        exact find?_addr_of_nodup rest (List.nodup_cons.mp hnd).2 hm

theorem leafHashAt_eq {leaves : List LeafIn}
    (hnd : (leaves.map (·.address)).Nodup) {l : LeafIn} (hl : l ∈ leaves) :
    leafHashAt leaves l.address = l.hash := by
  unfold leafHashAt
  rw [find?_addr_of_nodup leaves hnd hl]
  rfl

/-- The keys of a level of singleton-key nodes. -/
theorem keysOf_map_singleton {α : Type} (f : α → String) (g : α → Nat)
    (L : List α) :
    keysOf (L.map (fun l => MNode.mk [f l] (g l))) = L.map f := by
  induction L with
  | nil => rfl
  | cons a L ih => rw [List.map_cons, keysOf_cons, List.map_cons, ih]; rfl

/-- A level of at most one node with a nonempty key list is exactly one
node. -/
theorem level_singleton : ∀ (lvl : List MNode), lvl.length ≤ 1 →
    keysOf lvl ≠ [] → ∃ n, lvl = [n]
  | [], _, hk => absurd rfl hk
  | [n], _, _ => ⟨n, rfl⟩
  | _ :: _ :: _, hlen, _ => by simp at hlen

/-- Round trip for `buildMerkleTree`: every supplied leaf's proof folds
back to the returned root. -/
theorem buildMerkleTree_roundTrip (H : HashFn) :
    ∀ (leaves : List LeafIn), leaves ≠ [] →
    (leaves.map (·.address)).Nodup → ∀ l ∈ leaves,
    ∃ ps, (buildMerkleTree H leaves).proofs l.address = some ps ∧
      foldProof H l.hash ps = (buildMerkleTree H leaves).root
  | [], hne, _ => absurd rfl hne
  | [l0], _, _ => by
      intro l hl
      have he : l = l0 := by simpa using hl
      subst he
      exact ⟨[], by simp [buildMerkleTree], rfl⟩
  | l1 :: l2 :: rest, _, hnd => by
      intro l hl
      have hinv0 : LevelInv H (leafHashAt (l1 :: l2 :: rest))
          (fun k => if ((l1 :: l2 :: rest).map (·.address)).contains k
            then some [] else none)
          ((l1 :: l2 :: rest).map (fun l => MNode.mk [l.address] l.hash)) := by
        intro n hn k hk
        obtain ⟨l', hl', rfl⟩ := List.mem_map.mp hn
        have hk' : k = l'.address := by simpa using hk
        subst hk'
        refine ⟨[], ?_, ?_⟩
        · have hc : ((l1 :: l2 :: rest).map (·.address)).contains l'.address = true :=
            List.elem_eq_true_of_mem (List.mem_map_of_mem (·.address) hl')
          show (if ((l1 :: l2 :: rest).map (·.address)).contains l'.address = true
            then some [] else (none : Option (List Nat))) = some []
          rw [hc]
          rfl
        · show leafHashAt (l1 :: l2 :: rest) l'.address = _
          rw [leafHashAt_eq hnd hl']
      have hkeys0 := keysOf_map_singleton (·.address) (·.hash) (l1 :: l2 :: rest)
      have hloopinv := buildLoop_inv H (leafHashAt (l1 :: l2 :: rest))
        ((l1 :: l2 :: rest).map (fun l => MNode.mk [l.address] l.hash)).length
        ((l1 :: l2 :: rest).map (fun l => MNode.mk [l.address] l.hash))
        (fun k => if ((l1 :: l2 :: rest).map (·.address)).contains k
          then some [] else none)
        (by rw [hkeys0]; exact hnd) hinv0
      have hlen := buildLoop_length H
        ((l1 :: l2 :: rest).map (fun l => MNode.mk [l.address] l.hash)).length
        ((l1 :: l2 :: rest).map (fun l => MNode.mk [l.address] l.hash))
        (fun k => if ((l1 :: l2 :: rest).map (·.address)).contains k
          then some [] else none)
        (Nat.le_refl _)
      have hkeys := buildLoop_keysOf H
        ((l1 :: l2 :: rest).map (fun l => MNode.mk [l.address] l.hash)).length
        ((l1 :: l2 :: rest).map (fun l => MNode.mk [l.address] l.hash))
        (fun k => if ((l1 :: l2 :: rest).map (·.address)).contains k
          then some [] else none)
      rw [hkeys0] at hkeys
      obtain ⟨n, hn⟩ := level_singleton _ hlen
        (by rw [hkeys]; simp)
      have hmem : l.address ∈ n.keys := by
        have : l.address ∈ keysOf [n] := by
          rw [← hn, hkeys]
          exact List.mem_map_of_mem (·.address) hl
        simpa [keysOf] using this
      obtain ⟨ps, hps, hfold⟩ :=
        hloopinv n (by rw [hn]; exact List.mem_singleton_self n) l.address hmem
      rw [leafHashAt_eq hnd hl] at hfold
      refine ⟨ps, ?_, ?_⟩
      · show (buildLoop H _ _ _).2 l.address = some ps
        exact hps
      · show foldProof H l.hash ps = (buildLoop H _ _ _).1.headI.hashBig
        rw [hn]
        simpa using hfold

/-- The proofs record of `buildMerkleTree` has an entry exactly at the
supplied addresses. -/
theorem buildMerkleTree_domain (H : HashFn) :
    ∀ (leaves : List LeafIn) (k : String),
    ((buildMerkleTree H leaves).proofs k).isSome = true ↔
      k ∈ leaves.map (·.address)
  | [], k => by simp [buildMerkleTree]
  | [l], k => by
      show (if k = l.address then some ([] : List Nat) else none).isSome = true ↔ _
      by_cases h : k = l.address <;> simp [h]
  | l1 :: l2 :: rest, k => by
      have hred : ((buildMerkleTree H (l1 :: l2 :: rest)).proofs k).isSome =
          (if ((l1 :: l2 :: rest).map (·.address)).contains k = true
            then some ([] : List Nat) else none).isSome := by
        show ((buildLoop H _ _ _).2 k).isSome = _
        rw [buildLoop_isSome]
      rw [hred]
      by_cases h : k ∈ (l1 :: l2 :: rest).map (·.address)
      · rw [if_pos (List.elem_eq_true_of_mem h)]
        simpa using h
      · rw [if_neg (fun hc => h (List.mem_of_elem_eq_true hc))]
        simpa using h

/-- Merging into an accumulator that is disjoint from a duplicate-free
list just appends it. -/
theorem dedupe_foldl_append : ∀ (ys acc : List String),
    (∀ k ∈ ys, k ∉ acc) → ys.Nodup →
    ys.foldl (fun acc k => if acc.contains k then acc else acc ++ [k]) acc =
      acc ++ ys
  | [], acc, _, _ => by simp
  | a :: ys, acc, hdisj, hnd => by
      rw [List.foldl_cons]
      have hca : acc.contains a = false := by
        rcases h : acc.contains a
        · rfl
        · exact absurd (List.mem_of_elem_eq_true h) (hdisj a (by simp))
      have hstep : (if acc.contains a = true then acc else acc ++ [a]) =
          acc ++ [a] := by
        rw [hca]
        rfl
      rw [hstep, dedupe_foldl_append ys (acc ++ [a]) ?_ (List.nodup_cons.mp hnd).2]
      · rw [List.append_assoc]
        rfl
      · intro k hk
        rw [List.mem_append]
        rintro (hka | hka)
        · exact hdisj k (by simp [hk]) hka
        · have he : k = a := by simpa using hka
          exact (List.nodup_cons.mp hnd).1 (he ▸ hk)

/-- Under level-wide key distinctness the focus pairing pass coincides
with the plain one (its extra `includes` guards never fire). -/
theorem focusPairOff_eq (H : HashFn) : ∀ (l : List MNode) (p : ProofsMap),
    (keysOf l).Nodup → focusPairOff H l p = pairOff H l p
  | [], _, _ => rfl
  | [_], _, _ => rfl
  | x :: y :: rest, p, hnd => by
      rw [keysOf_cons, keysOf_cons] at hnd
      obtain ⟨hxnd, hrest1, hdisj1⟩ := nodup_append_parts hnd
      obtain ⟨hynd, hrnd, hdisj2⟩ := nodup_append_parts hrest1
      have hdisjxy : ∀ k ∈ y.keys, k ∉ x.keys :=
        fun k hk hm => hdisj1 k hm (List.mem_append.mpr (Or.inl hk))
      have hfil : y.keys.filter (fun k => !x.keys.contains k) = y.keys := by
        rw [List.filter_eq_self]
        intro k hk
        have hx : k ∉ x.keys := hdisjxy k hk
        simp [List.contains, List.elem_eq_mem, hx]
      have hcomb : y.keys.foldl
          (fun acc k => if acc.contains k then acc else acc ++ [k]) x.keys =
          x.keys ++ y.keys :=
        dedupe_foldl_append y.keys x.keys hdisjxy hynd
      have hrec := focusPairOff_eq H rest
        (y.keys.foldl (fun acc k => pushProof acc k x.hashBig)
          (x.keys.foldl (fun acc k => pushProof acc k y.hashBig) p)) hrnd
      simp only [focusPairOff, pairOff, pushProofAll]
      rw [hfil, hcomb, hrec]

/-- Under key distinctness the focus loop coincides with the plain
loop. -/
theorem focusBuildLoop_eq (H : HashFn) : ∀ (fuel : Nat) (l : List MNode)
    (p : ProofsMap), (keysOf l).Nodup →
    focusBuildLoop H fuel l p = buildLoop H fuel l p
  | 0, _, _, _ => rfl
  | fuel + 1, l, p, hnd => by
      unfold focusBuildLoop buildLoop
      by_cases h : l.length ≤ 1
      · rw [if_pos h, if_pos h]
      · rw [if_neg h, if_neg h]
        show focusBuildLoop H fuel (focusPairOff H l p).1 (focusPairOff H l p).2 =
          buildLoop H fuel (pairOff H l p).1 (pairOff H l p).2
        rw [focusPairOff_eq H l p hnd]
        exact focusBuildLoop_eq H fuel _ _ (by rw [pairOff_keysOf]; exact hnd)

/-- A focus leaf viewed as a plain leaf keyed by its focus key. -/
def focusLeafToLeaf (l : FocusLeafIn) : LeafIn :=
  { address := focusKey l.address l.session_id, hash := l.hash }

/-- Under distinct focus keys, `buildFocusMerkleTree` is
`buildMerkleTree` on the rekeyed leaves. -/
theorem buildFocusMerkleTree_eq (H : HashFn) : ∀ (leaves : List FocusLeafIn),
    (leaves.map (fun l => focusKey l.address l.session_id)).Nodup →
    buildFocusMerkleTree H leaves = buildMerkleTree H (leaves.map focusLeafToLeaf)
  | [], _ => rfl
  | [_], _ => rfl
  | l1 :: l2 :: rest, hnd => by
      have hmap1 : ((l1 :: l2 :: rest).map focusLeafToLeaf).map (·.address) =
          (l1 :: l2 :: rest).map (fun l => focusKey l.address l.session_id) := by
        rw [List.map_map]
        rfl
      have hmap2 : ((l1 :: l2 :: rest).map focusLeafToLeaf).map
            (fun l => MNode.mk [l.address] l.hash) =
          (l1 :: l2 :: rest).map
            (fun l => MNode.mk [focusKey l.address l.session_id] l.hash) := by
        rw [List.map_map]
        rfl
      have hkeys0 := keysOf_map_singleton
        (fun l : FocusLeafIn => focusKey l.address l.session_id)
        (fun l => l.hash) (l1 :: l2 :: rest)
      have hnodL0 : (keysOf ((l1 :: l2 :: rest).map
          (fun l => MNode.mk [focusKey l.address l.session_id] l.hash))).Nodup := by
        rw [hkeys0]
        exact hnd
      have hR : focusBuildLoop H
          ((l1 :: l2 :: rest).map
            (fun l => MNode.mk [focusKey l.address l.session_id] l.hash)).length
          ((l1 :: l2 :: rest).map
            (fun l => MNode.mk [focusKey l.address l.session_id] l.hash))
          (fun k =>
            if ((l1 :: l2 :: rest).map
              (fun l => focusKey l.address l.session_id)).contains k
            then some [] else none) =
          buildLoop H
          (((l1 :: l2 :: rest).map focusLeafToLeaf).map
            (fun l => MNode.mk [l.address] l.hash)).length
          (((l1 :: l2 :: rest).map focusLeafToLeaf).map
            (fun l => MNode.mk [l.address] l.hash))
          (fun k =>
            if (((l1 :: l2 :: rest).map focusLeafToLeaf).map (·.address)).contains k
            then some [] else none) := by
        rw [hmap2]
        simp only [hmap1]
        exact focusBuildLoop_eq H _ _ _ hnodL0
      exact congrArg (fun R : List MNode × ProofsMap =>
        MerkleTree.mk R.1.headI.hashBig R.2) hR

/-- C3: for every non-empty leaf list with distinct identity keys, each
supplied leaf's proof, folded with sorted-pair hashing from the leaf's
hash, reproduces the returned root — for both builders, any hash
function, including zero-reward leaves (the leaf hash is arbitrary
here, so zero-reward leaf hashes are covered). -/
theorem claim_C3_merkle_round_trip (H : HashFn) :
    (∀ (leaves : List LeafIn), leaves ≠ [] →
      (leaves.map (·.address)).Nodup → ∀ l ∈ leaves,
      ∃ ps, (buildMerkleTree H leaves).proofs l.address = some ps ∧
        foldProof H l.hash ps = (buildMerkleTree H leaves).root) ∧
    (∀ (leaves : List FocusLeafIn), leaves ≠ [] →
      (leaves.map (fun l => focusKey l.address l.session_id)).Nodup →
      ∀ l ∈ leaves,
      ∃ ps, (buildFocusMerkleTree H leaves).proofs
          (focusKey l.address l.session_id) = some ps ∧
        foldProof H l.hash ps = (buildFocusMerkleTree H leaves).root) := by
  refine ⟨buildMerkleTree_roundTrip H, ?_⟩
  intro leaves hne hnd l hl
  rw [buildFocusMerkleTree_eq H leaves hnd]
  have hnd' : ((leaves.map focusLeafToLeaf).map (·.address)).Nodup := by
    rw [List.map_map]
    exact hnd
  have hne' : leaves.map focusLeafToLeaf ≠ [] := by
    simpa using hne
  exact buildMerkleTree_roundTrip H (leaves.map focusLeafToLeaf) hne' hnd'
    (focusLeafToLeaf l) (List.mem_map_of_mem _ hl)

/-- A concrete stand-in for the Poseidon primitive, used to evaluate
the builders on explicit inputs. -/
def testHash : HashFn := fun l => l.foldl (fun a x => a * 1000 + x + 1) 7

def demoLeaves : List LeafIn := [⟨"a", 1⟩, ⟨"b", 2⟩, ⟨"c", 3⟩]

def demoLeavesPerm : List LeafIn := [⟨"c", 3⟩, ⟨"a", 1⟩, ⟨"b", 2⟩]

def demoFocusLeaves : List FocusLeafIn :=
  [⟨"0xa", 1, 10⟩, ⟨"0xb", 2, 20⟩, ⟨"0xc", 3, 30⟩]

theorem claim_C3_merkle_round_trip_witness :
    ∃ ps, (buildMerkleTree testHash demoLeaves).proofs "b" = some ps ∧
      foldProof testHash 2 ps = (buildMerkleTree testHash demoLeaves).root :=
  (claim_C3_merkle_round_trip testHash).1 demoLeaves (by decide) (by decide)
    ⟨"b", 2⟩ (by decide)

/-- C8: under pairwise-distinct identity keys, the proofs record of
either builder has an entry exactly at each supplied leaf's key — none
missing (zero-reward leaves included, since leaves are arbitrary) and
none extra. -/
theorem claim_C8_proofs_domain (H : HashFn) :
    (∀ (leaves : List LeafIn), (leaves.map (·.address)).Nodup →
      ∀ k, ((buildMerkleTree H leaves).proofs k).isSome = true ↔
        k ∈ leaves.map (·.address)) ∧
    (∀ (leaves : List FocusLeafIn),
      (leaves.map (fun l => focusKey l.address l.session_id)).Nodup →
      ∀ k, ((buildFocusMerkleTree H leaves).proofs k).isSome = true ↔
        k ∈ leaves.map (fun l => focusKey l.address l.session_id)) := by
  refine ⟨fun leaves _ k => buildMerkleTree_domain H leaves k, ?_⟩
  intro leaves hnd k
  rw [buildFocusMerkleTree_eq H leaves hnd]
  have h := buildMerkleTree_domain H (leaves.map focusLeafToLeaf) k
  rw [List.map_map] at h
  exact h

theorem claim_C8_proofs_domain_witness :
    ((buildMerkleTree testHash demoLeaves).proofs "b").isSome = true ∧
    ((buildMerkleTree testHash demoLeaves).proofs "zz").isSome ≠ true :=
  ⟨((claim_C8_proofs_domain testHash).1 demoLeaves (by decide) "b").mpr
      (by decide),
   fun h => absurd
     (((claim_C8_proofs_domain testHash).1 demoLeaves (by decide) "zz").mp h)
     (by decide)⟩

/-- C4 fails: `demoLeavesPerm` is a permutation of `demoLeaves`, yet
the two roots differ — with sorted-pair hashing the pairing structure
still depends on input order once a level has three or more nodes. -/
theorem claim_C4_order_counterexample :
    List.Perm demoLeavesPerm demoLeaves ∧
    (buildMerkleTree testHash demoLeavesPerm).root ≠
      (buildMerkleTree testHash demoLeaves).root := by
  constructor
  · decide
  · decide

/-- C4 amended: the root is order-independent for lists of at most two
leaves (sorted-pair hashing makes each single pairing symmetric); for
three or more leaves it is order-dependent in general. -/
theorem claim_C4_amended_two_leaf_comm (H : HashFn) (a b : LeafIn) :
    (buildMerkleTree H [a, b]).root = (buildMerkleTree H [b, a]).root := by
  show sortedPairHash H a.hash b.hash = sortedPairHash H b.hash a.hash
  exact sortedPairHash_comm H a.hash b.hash

/-- C5 fails: in the 3-leaf tree the self-paired last node gets a proof
entry after all — the unconditional left-side push appends the node's
own hash (`3` for leaf `"c"`, `30` for the focus leaf) before the
level-1 sibling, so its proof has two entries, not one. -/
theorem claim_C5_self_pair_counterexample :
    (buildMerkleTree testHash demoLeaves).proofs "c" = some [3, 7002003] ∧
    ((buildMerkleTree testHash demoLeaves).proofs "c").map List.length ≠
      some 1 ∧
    (buildFocusMerkleTree testHash demoFocusLeaves).proofs (focusKey "0xc" 3) =
      some [30, 7011021] := by
  refine ⟨by decide, by decide, by decide⟩

/-- C5 amended: when the trailing node of a level pairs with itself,
each of its (distinct) leaf keys receives exactly one proof entry at
that level — the duplicated node's own hash — appended by the
unconditional left-side push; the right-side push is skipped because
`left === right`. Holds for both builders' pairing passes. -/
theorem claim_C5_amended_self_pair (H : HashFn) (x : MNode) (p : ProofsMap)
    (k : String) (hk : k ∈ x.keys) (hnd : x.keys.Nodup) :
    (pairOff H [x] p).2 k = (p k).map (fun ps => ps ++ [x.hashBig]) ∧
    (focusPairOff H [x] p).2 k = (p k).map (fun ps => ps ++ [x.hashBig]) :=
  ⟨pushProofAll_mem x.keys x.hashBig k hk hnd p,
   pushProofAll_mem x.keys x.hashBig k hk hnd p⟩

theorem claim_C5_amended_self_pair_witness :
    (pairOff testHash [MNode.mk ["c"] 3] (fun _ => some [])).2 "c" =
      ((fun _ => some ([] : List Nat)) "c").map (fun ps => ps ++ [3]) ∧
    (focusPairOff testHash [MNode.mk ["c"] 3] (fun _ => some [])).2 "c" =
      ((fun _ => some ([] : List Nat)) "c").map (fun ps => ps ++ [3]) :=
  claim_C5_amended_self_pair testHash (MNode.mk ["c"] 3) (fun _ => some [])
    "c" (by decide) (by decide)

/-- Source `ProcessingResult` from `src/types/common.ts` (fields the claims
touch; the optional pool summary is omitted). -/
structure ProcessingResult where
  success : Bool
  message : Option String
  transaction_hash : Option String
deriving DecidableEq, Repr

/-- Focus pool configuration; its absence disables the pool type. -/
structure FocusConfig where
  contract_address : String
deriving DecidableEq, Repr

/-- One pool run's view of the external ledger: the outcome of
`account.execute` (transaction hash, or the thrown error), the
receipt's `execution_status`, and the root that `get_pool_info`
returns on re-read. -/
structure ChainEnv where
  submitResult : Except String String
  execution_status : String
  onChainRoot : String
deriving Repr

/-- One pool run's view of all external collaborators. -/
structure Env where
  focusConfig : Option FocusConfig
  now : Nat
  users : List FocusLockUser
  chain : ChainEnv
  storeResult : Except String Unit
deriving Repr

/-- External effects of one focus pool run, in order of occurrence. -/
inductive Effect
  | fetchLocks
  | submitTx
  | storeResults
deriving DecidableEq, Repr

/-- Source `calculateTimeRange` from `src/core/database.ts`:
`(periodStart, periodEnd)` of a `(day, period)` pool. -/
def calculateTimeRange (day : Nat) (period : Nat) : Nat × Nat :=
  let dayStart := day * 86400
  let periodStart := dayStart + period * 43200
  let periodEnd := periodStart + 43200
  (periodStart, periodEnd)

/-- Source `TIME_BUFFER_SECONDS = 30 * 60`. -/
def TIME_BUFFER_SECONDS : Nat := 30 * 60

/-- Source `validatePoolUsers` from `src/core/calculator.ts`, over the focus
users of a run: every address nonempty and `0x`-prefixed, every stake
inside u256; the first violation throws. -/
def validatePoolUsers : List FocusLockUser → Except String Unit
  | [] => .ok ()
  | user :: rest =>
      if user.address = "" ∨ user.address.startsWith "0x" = false then
        .error ("Invalid address: " ++ user.address)
      else if user.stake_amount ≥ 1 <<< 256 then
        .error ("stake_amount out of u256 range: " ++ toString user.stake_amount)
      else validatePoolUsers rest

/-- Source `toHexString`: `"0x" + value.toString(16)` (lowercase). -/
def toHexString (val : Nat) : String :=
  "0x" ++ String.mk (Nat.toDigits 16 val)

/-- Source `BlockchainService.normalizeHex` on the string inputs that occur
here: lowercase the hex string. -/
def normalizeHex (hex : String) : String := hex.toLower

/-- Value of a hex digit character (`BigInt` hex parsing). -/
def hexCharVal (c : Char) : Nat :=
  if '0' ≤ c ∧ c ≤ '9' then c.toNat - 48
  else if 'a' ≤ c ∧ c ≤ 'f' then c.toNat - 87
  else if 'A' ≤ c ∧ c ≤ 'F' then c.toNat - 55
  else 0

/-- Source `BigInt(address)` on a `0x`-prefixed hex address string. -/
def parseHexAddress (s : String) : Nat :=
  (s.drop 2).foldl (fun a c => a * 16 + hexCharVal c) 0

/-- Source `BlockchainService.setMerkleRootOnChain` together with its
`verifyMerkleRoot` call (`src/core/blockchain.ts`): submit the
`set_merkle_root_for_pool` transaction, wait for the receipt, require
`execution_status === 'SUCCEEDED'`, then re-read the pool info and
require the stored root to equal the computed root after hex
normalization; any failure is thrown.  The calldata arguments are
carried for fidelity; the environment fixes the ledger's behaviour. -/
def setMerkleRootOnChain (chain : ChainEnv) (_contractAddress : String)
    (_day : Nat) (_period : Nat) (merkleRoot : String)
    (_newRewards : Nat) (_protocolFees : Nat) : Except String String :=
  match chain.submitResult with
  | .error e => .error e
  | .ok txHash =>
      if chain.execution_status ≠ "SUCCEEDED" then
        .error ("Transaction failed with status: " ++ chain.execution_status)
      else if normalizeHex chain.onChainRoot ≠ normalizeHex merkleRoot then
        .error ("Merkle root verification failed! On-chain: " ++
          normalizeHex chain.onChainRoot ++ ", Expected: " ++
          normalizeHex merkleRoot)
      else .ok txHash

/-- Step 4 of `processFocusLockPool`: one leaf per lock, reward looked
up by address and session id (zero when absent), hashed with
`createFocusMerkleLeaf`. -/
def focusPoolLeaves (H : HashFn) (users : List FocusLockUser) :
    List FocusLeafIn :=
  let rewards := processFocusRewardsStep users
  users.map (fun user =>
    let userReward := rewards.find? (fun r =>
      r.address == user.address && r.session_id == user.session_id)
    let rewardAmount := (userReward.map (·.reward_amount)).getD 0
    { address := user.address
      session_id := user.session_id
      hash := createFocusMerkleLeaf H (parseHexAddress user.address)
        user.session_id rewardAmount })

/-- Source `processFocusLockPool` from `src/focus/processor.ts`, over an
explicit environment of external collaborators; returns the
thrown-or-returned result together with the ordered list of external
effects performed. -/
def processFocusLockPool (H : HashFn) (day : Nat) (period : Nat)
    (force : Bool) (env : Env) :
    Except String ProcessingResult × List Effect :=
  match env.focusConfig with
  | none =>
      (.error "Focus lock configuration not available. Set FOCUS_CONTRACT_ADDRESS and FOCUS_VERIFIER_PRIVATE_KEY in .env",
       [])
  | some focusConfig =>
      let periodEnd := (calculateTimeRange day period).2
      let readyTime := periodEnd + TIME_BUFFER_SECONDS
      if force = false ∧ env.now < readyTime then
        (.ok { success := false
               message := some ("Too early to process. Pool will be ready in " ++
                 toString (readyTime - env.now) ++ "s")
               transaction_hash := none },
         [])
      else
        let users := env.users
        if users.isEmpty then
          (.ok { success := false, message := some "No focus locks in pool",
                 transaction_hash := none },
           [Effect.fetchLocks])
        else
          match validatePoolUsers users with
          | .error e => (.error e, [Effect.fetchLocks])
          | .ok _ =>
              let totalSlashed := calculateFocusTotalSlashed users
              let protocolFees :=
                totalSlashed * PROTOCOL_FEE_PERCENT / PERCENT_BASE
              let newRewards := totalSlashed - protocolFees
              let merkleTree := buildFocusMerkleTree H (focusPoolLeaves H users)
              match setMerkleRootOnChain env.chain focusConfig.contract_address
                day period (toHexString merkleTree.root) newRewards
                protocolFees with
              | .error e =>
                  (.error ("Blockchain finalization required before database storage: " ++ e),
                   [Effect.fetchLocks, Effect.submitTx])
              | .ok txHash =>
                  match env.storeResult with
                  | .error e =>
                      (.error e,
                       [Effect.fetchLocks, Effect.submitTx, Effect.storeResults])
                  | .ok _ =>
                      (.ok { success := true, message := none,
                             transaction_hash := some txHash },
                       [Effect.fetchLocks, Effect.submitTx, Effect.storeResults])

/-- If the submission throws, the receipt is not SUCCEEDED, or the
re-read root mismatches, the publish step throws. -/
theorem setMerkleRootOnChain_error (chain : ChainEnv) (c : String)
    (day period : Nat) (root : String) (nr pf : Nat)
    (hfail : (∃ e, chain.submitResult = .error e) ∨
      chain.execution_status ≠ "SUCCEEDED" ∨
      normalizeHex chain.onChainRoot ≠ normalizeHex root) :
    ∃ e, setMerkleRootOnChain chain c day period root nr pf = .error e := by
  unfold setMerkleRootOnChain
  rcases hsub : chain.submitResult with e | txHash
  · exact ⟨e, rfl⟩
  · show ∃ e,
      (if chain.execution_status ≠ "SUCCEEDED" then
        Except.error ("Transaction failed with status: " ++ chain.execution_status)
      else if normalizeHex chain.onChainRoot ≠ normalizeHex root then
        Except.error ("Merkle root verification failed! On-chain: " ++
          normalizeHex chain.onChainRoot ++ ", Expected: " ++ normalizeHex root)
      else Except.ok txHash) = Except.error e
    by_cases hst : chain.execution_status = "SUCCEEDED"
    · by_cases hroot : normalizeHex chain.onChainRoot = normalizeHex root
      · rcases hfail with ⟨e, he⟩ | h | h
        · rw [hsub] at he; cases he
        · exact absurd hst h
        · exact absurd hroot h
      · rw [if_neg (not_not_intro hst), if_pos hroot]
        exact ⟨_, rfl⟩
    · rw [if_pos hst]
      exact ⟨_, rfl⟩

/-- A successful publish implies the submission succeeded, the receipt
was SUCCEEDED, and the re-read root matched. -/
theorem setMerkleRootOnChain_ok (chain : ChainEnv) (c : String)
    (day period : Nat) (root : String) (nr pf : Nat) (tx : String)
    (h : setMerkleRootOnChain chain c day period root nr pf = .ok tx) :
    chain.execution_status = "SUCCEEDED" ∧
    normalizeHex chain.onChainRoot = normalizeHex root ∧
    chain.submitResult = .ok tx := by
  unfold setMerkleRootOnChain at h
  split at h
  · cases h
  · next txHash hsub =>
      split at h
      · cases h
      · split at h
        · cases h
        · next hroot =>
            cases h
            next hst =>
              exact ⟨not_not.mp hst, not_not.mp hroot, hsub⟩

/-- The publish failure is uniform in the calldata arguments. -/
theorem setMerkleRootOnChain_error_forall (chain : ChainEnv) (root : String)
    (hfail : (∃ e, chain.submitResult = .error e) ∨
      chain.execution_status ≠ "SUCCEEDED" ∨
      normalizeHex chain.onChainRoot ≠ normalizeHex root) :
    ∃ e, ∀ (c : String) (day period : Nat) (nr pf : Nat),
      setMerkleRootOnChain chain c day period root nr pf = .error e := by
  obtain ⟨e, he⟩ := setMerkleRootOnChain_error chain "" 0 0 root 0 0 hfail
  exact ⟨e, fun c day period nr pf => he⟩

/-- C1: whenever the ledger interaction is doomed — the submission
throws, or the receipt's execution status is not SUCCEEDED, or the
re-read on-chain root differs from the computed root — the focus pool
run performs no storage write, and if it got as far as submitting, it
ends in a thrown error. -/
theorem claim_C1_publish_gates_persistence (H : HashFn) (day period : Nat)
    (force : Bool) (env : Env)
    (hfail : (∃ e, env.chain.submitResult = .error e) ∨
      env.chain.execution_status ≠ "SUCCEEDED" ∨
      normalizeHex env.chain.onChainRoot ≠ normalizeHex (toHexString
        (buildFocusMerkleTree H (focusPoolLeaves H env.users)).root)) :
    Effect.storeResults ∉ (processFocusLockPool H day period force env).2 ∧
    (Effect.submitTx ∈ (processFocusLockPool H day period force env).2 →
      ∃ e, (processFocusLockPool H day period force env).1 = .error e) := by
  obtain ⟨e0, hset⟩ := setMerkleRootOnChain_error_forall env.chain
    (toHexString (buildFocusMerkleTree H (focusPoolLeaves H env.users)).root)
    hfail
  unfold processFocusLockPool
  simp only [hset]
  split
  · exact ⟨by simp, by simp⟩
  · split
    · exact ⟨by simp, by simp⟩
    · split
      · exact ⟨by simp, by simp⟩
      · split
        · exact ⟨by simp, by simp⟩
        · exact ⟨by simp, fun _ => ⟨_, rfl⟩⟩

/-- Concrete focus users for the orchestrator witnesses (valid
addresses, one completed and one failed lock). -/
def demoEnvUsers : List FocusLockUser :=
  [{ address := "0xa", stake_amount := 100, session_id := 1, duration := 1,
     completion_status := true },
   { address := "0xb", stake_amount := 100, session_id := 2, duration := 1,
     completion_status := false }]

/-- An environment whose ledger reverts the transaction. -/
def envBadChain : Env :=
  { focusConfig := some { contract_address := "0xf" }
    now := 0
    users := demoEnvUsers
    chain := { submitResult := .ok "0xabc", execution_status := "REVERTED",
               onChainRoot := "0x0" }
    storeResult := .ok () }

theorem claim_C1_publish_gates_persistence_witness :
    Effect.storeResults ∉ (processFocusLockPool testHash 0 0 true envBadChain).2 ∧
    (Effect.submitTx ∈ (processFocusLockPool testHash 0 0 true envBadChain).2 →
      ∃ e, (processFocusLockPool testHash 0 0 true envBadChain).1 = .error e) :=
  claim_C1_publish_gates_persistence testHash 0 0 true envBadChain
    (Or.inr (Or.inl (by decide)))

/-- C9: with the pool type configured and `force = false`, a run before
`periodEnd + 1800` returns the too-early skip (success `false`, message
carrying `readyTime - now` seconds) without raising and with no
external effect; with `force = true` the run proceeds past the timing
check (the fetch happens regardless of the clock). -/
theorem claim_C9_timing_skip (H : HashFn) (day period : Nat) (env : Env)
    (cfg : FocusConfig) (hcfg : env.focusConfig = some cfg) :
    (env.now < (calculateTimeRange day period).2 + TIME_BUFFER_SECONDS →
      processFocusLockPool H day period false env =
        (.ok { success := false
               message := some ("Too early to process. Pool will be ready in " ++
                 toString ((calculateTimeRange day period).2 + TIME_BUFFER_SECONDS
                   - env.now) ++ "s")
               transaction_hash := none },
         ([] : List Effect))) ∧
    Effect.fetchLocks ∈ (processFocusLockPool H day period true env).2 := by
  constructor
  · intro hnow
    simp only [processFocusLockPool, hcfg]
    rw [if_pos ⟨trivial, hnow⟩]
  · simp only [processFocusLockPool, hcfg]
    rw [if_neg (by simp :
      ¬ (true = false ∧ env.now <
        (calculateTimeRange day period).2 + TIME_BUFFER_SECONDS))]
    split
    · simp
    · split
      · simp
      · split
        · simp
        · split <;> simp

/-- An environment observed 45000 seconds before pool (0,0) is ready. -/
def envTooEarly : Env :=
  { focusConfig := some { contract_address := "0xc" }
    now := 0
    users := []
    chain := { submitResult := .ok "0xabc", execution_status := "SUCCEEDED",
               onChainRoot := "0x0" }
    storeResult := .ok () }

theorem claim_C9_timing_skip_witness :
    processFocusLockPool testHash 0 0 false envTooEarly =
      (.ok { success := false
             message := some "Too early to process. Pool will be ready in 45000s"
             transaction_hash := none },
       ([] : List Effect)) ∧
    Effect.fetchLocks ∈ (processFocusLockPool testHash 0 0 true envTooEarly).2 := by
  have h := claim_C9_timing_skip testHash 0 0 envTooEarly
    { contract_address := "0xc" } rfl
  refine ⟨?_, h.2⟩
  rw [h.1 (by decide)]
  rfl

/-- The catch blocks of `processCronPools` (`src/cron/processor.ts`): a
processor outcome — returned result or thrown error — collapsed to a
`ProcessingResult` with a prefixed error message. -/
def caughtResult (errorPrefix : String)
    (outcome : Except String ProcessingResult) : ProcessingResult :=
  match outcome with
  | .ok res => res
  | .error e =>
      { success := false, message := some (errorPrefix ++ e),
        transaction_hash := none }

/-- Source `CronProcessingResult` (fields the claim touches). -/
structure CronProcessingResult where
  success : Bool
  alarm : ProcessingResult
  focus : ProcessingResult
deriving DecidableEq, Repr

/-- Source `processCronPools` from `src/cron/processor.ts`, over the outcomes
of the two per-pool processors (each either returns a result or
throws; the cron driver catches throws and converts them to failed
results): the top-level `success` is
`alarmResult.success || focusResult.success`. -/
def processCronPools
    (alarmOutcome focusOutcome : Except String ProcessingResult) :
    CronProcessingResult :=
  let alarmResult := caughtResult "Alarm processing error: " alarmOutcome
  let focusResult := caughtResult "Focus lock processing error: " focusOutcome
  { success := alarmResult.success || focusResult.success
    alarm := alarmResult
    focus := focusResult }

/-- C10: the combined run's success flag is the disjunction of the two
pool-type results; in particular a thrown alarm failure is invisible in
the top-level flag whenever the focus run succeeded. -/
theorem claim_C10_cron_success_disjunction
    (alarmOutcome focusOutcome : Except String ProcessingResult) :
    ((processCronPools alarmOutcome focusOutcome).success = true ↔
      ((caughtResult "Alarm processing error: " alarmOutcome).success = true ∨
       (caughtResult "Focus lock processing error: " focusOutcome).success =
         true)) ∧
    (∀ e, alarmOutcome = .error e →
      (caughtResult "Focus lock processing error: " focusOutcome).success =
        true →
      (processCronPools alarmOutcome focusOutcome).success = true) := by
  constructor
  · simp [processCronPools, Bool.or_eq_true]
  · intro e ha hf
    simp [processCronPools, hf, Bool.or_eq_true]

theorem claim_C10_cron_success_disjunction_witness :
    (processCronPools (.error "alarm boom")
      (.ok { success := true, message := none,
             transaction_hash := some "0xt" })).success = true :=
  (claim_C10_cron_success_disjunction (.error "alarm boom")
    (.ok { success := true, message := none,
           transaction_hash := some "0xt" })).2 "alarm boom" rfl rfl
